import Mathlib

/-!
Verification of `run.py`, the developer-convenience script of the pympler
repository.  The script orchestrates a unit-test runner, the PyChecker static
analyzer and the Sphinx documentation builder via command-line flags.

The embedding below models:
* the fragment of Python regular expressions used by the script
  (`re.compile` / `pat.match`), via Brzozowski derivatives;
* the filesystem seen by `os.path.isfile` / `os.path.isdir` / `os.walk`,
  as a finite tree of named nodes;
* the observable effects of the script (printed lines, subprocess
  invocations, environment assignments, working-directory changes) as a
  trace of events threaded through an explicit state.

Paths are modelled as lists of components; `os.path.join` corresponds to
interleaving `"/"` separators.
-/

namespace Run

/-! ### Python regular expressions (the fragment used by `run.py`)

`run.py` compiles the patterns `'^test_[^\n]*.py$'` (default of `get_files`)
and `'[^\n]*.py$'` (in `run_pychecker`).  We model regular expressions with a
character-predicate atom (covering literal characters, `.` and character
classes), concatenation, alternation and Kleene star.  Python's `pat.match`
anchors at the start of the string only; a trailing `$` additionally anchors
the end.  A compiled pattern is therefore a regex body together with an
end-anchoring flag. -/

inductive Regex where
  | fail : Regex
  | eps : Regex
  | pred : (Char → Bool) → Regex
  | cat : Regex → Regex → Regex
  | alt : Regex → Regex → Regex
  | star : Regex → Regex

namespace Regex

/-- Does the regex accept the empty string? -/
def nullable : Regex → Bool
  | fail => false
  | eps => true
  | pred _ => false
  | cat r s => nullable r && nullable s
  | alt r s => nullable r || nullable s
  | star _ => true

/-- Brzozowski derivative with respect to one character. -/
def deriv : Regex → Char → Regex
  | fail, _ => fail
  | eps, _ => fail
  | pred p, c => if p c then eps else fail
  | cat r s, c =>
      if nullable r then alt (cat (deriv r c) s) (deriv s c)
      else cat (deriv r c) s
  | alt r s, c => alt (deriv r c) (deriv s c)
  | star r, c => cat (deriv r c) (star r)

/-- Does the regex match the whole character list? -/
def rmatch (r : Regex) : List Char → Bool
  | [] => nullable r
  | c :: cs => rmatch (deriv r c) cs

/-- A literal character. -/
def chr (c : Char) : Regex := pred (fun x => x == c)

/-- Python `.`: any character except a newline (no DOTALL flag is used). -/
def dot : Regex := pred (fun x => x != '\n')

/-- The character class `[^\n]`. -/
def nonNl : Regex := pred (fun x => x != '\n')

end Regex

/-- A compiled Python pattern: a regex body plus an end-anchoring flag
(whether the pattern ends in `$`).  `re.match` always anchors at the start. -/
structure PyPattern where
  re : Regex
  anchorEnd : Bool

/-- The boolean outcome of Python's `pat.match(s)`: the pattern must match at
the start of the string.  With a trailing `$` the match must consume the
whole string or all but a single trailing newline (Python's `$` also matches
just before a newline that ends the string); without `$`, matching any
prefix suffices. -/
def pyMatch (p : PyPattern) (s : String) : Bool :=
  if p.anchorEnd then
    Regex.rmatch p.re s.data
      || (s.data.getLast? == some '\n' && Regex.rmatch p.re s.data.dropLast)
  else
    (List.range (s.data.length + 1)).any fun k => Regex.rmatch p.re (s.data.take k)

/-- An anchored full-string match: the pattern body must consume the whole
string.  This is the "fully matches" notion used by the specification. -/
def fullMatch (p : PyPattern) (s : String) : Bool :=
  Regex.rmatch p.re s.data

/-- The default pattern of `get_files`: `'^test_[^\n]*.py$'`. -/
def test_pattern : PyPattern :=
  ⟨.cat (.chr 't') (.cat (.chr 'e') (.cat (.chr 's') (.cat (.chr 't') (.cat (.chr '_')
    (.cat (.star .nonNl) (.cat .dot (.cat (.chr 'p') (.chr 'y')))))))), true⟩

/-- The pattern `'[^\n]*.py$'` used by `run_pychecker`. -/
def pychok_pattern : PyPattern :=
  ⟨.cat (.star .nonNl) (.cat .dot (.cat (.chr 'p') (.chr 'y'))), true⟩

/-! ### Language semantics of the regex fragment and matcher completeness -/

/-- Declarative matching relation for the regex fragment. -/
inductive RMatches : Regex → List Char → Prop where
  | eps : RMatches .eps []
  | pred {p : Char → Bool} {c : Char} : p c = true → RMatches (.pred p) [c]
  | catm {r s l₁ l₂} : RMatches r l₁ → RMatches s l₂ → RMatches (.cat r s) (l₁ ++ l₂)
  | altL {r s l} : RMatches r l → RMatches (.alt r s) l
  | altR {r s l} : RMatches s l → RMatches (.alt r s) l
  | starNil {r} : RMatches (.star r) []
  | starCons {r l₁ l₂} : RMatches r l₁ → RMatches (.star r) l₂ →
      RMatches (.star r) (l₁ ++ l₂)



/-! ### Filesystem model

A filesystem is a finite tree.  Directory listings are ordered (mirroring the
unspecified but fixed order in which `os.walk` reports entries); names within
one real directory are unique, which is captured separately by `Node.wfb`. -/

inductive Node where
  | file : Node
  | dir : List (String × Node) → Node

/-- A path, as the list of its components.  The Python code manipulates paths
as strings; `os.path.join` corresponds to appending components. -/
abbrev Path := List String

/-- Render a component path as the string the script would pass to a
subprocess (components joined by `/`, as `os.path.join` does). -/
def pathStr (p : Path) : String := String.intercalate "/" p

/-- Python `os.path.basename`: the last path component. -/
def basename : Path → String
  | [] => ""
  | [x] => x
  | _ :: xs => basename xs

/-- Resolve a path in the tree. -/
def lookup : Path → Node → Option Node
  | [], n => some n
  | _ :: _, Node.file => none
  | c :: cs, Node.dir es =>
      match es.find? (fun e => e.1 = c) with
      | some e => lookup cs e.2
      | none => none

/-- The entries of a directory listing that are plain files, as full paths
below `pre`.  These are the `files` component of one `os.walk` triple. -/
def filesOf (pre : Path) (es : List (String × Node)) : List Path :=
  es.filterMap fun e => match e.2 with
    | Node.file => some (pre ++ [e.1])
    | Node.dir _ => none

mutual

/-- All file paths below a node, in the order `os.walk` reports them with its
default top-down traversal: the files of a directory first, then the contents
of each subdirectory in listing order. -/
def walkNode (pre : Path) : Node → List Path
  | Node.file => []
  | Node.dir es => filesOf pre es ++ walkSubs pre es

/-- Walk the subdirectories of a listing in order. -/
def walkSubs (pre : Path) : List (String × Node) → List Path
  | [] => []
  | (name, Node.dir es) :: rest =>
      walkNode (pre ++ [name]) (Node.dir es) ++ walkSubs pre rest
  | (_, Node.file) :: rest => walkSubs pre rest

end

/-- The contribution of one root location to `get_files`: a file root is
returned verbatim when its base name matches; a directory root is walked
recursively, keeping the files whose base name matches; a missing root
contributes nothing. -/
def processLoc (fs : Node) (pattern : PyPattern) (loc : Path) : List Path :=
  match lookup loc fs with
  | some Node.file => if pyMatch pattern (basename loc) then [loc] else []
  | some (Node.dir es) =>
      (walkNode loc (Node.dir es)).filter fun p => pyMatch pattern (basename p)
  | none => []

/-- The function `get_files(locations, pattern)` of `run.py`: all matching files in the
given locations.  The Python default arguments are `['test']` and
`test_pattern`. -/
def get_files (fs : Node) (locations : List Path) (pattern : PyPattern) :
    List Path :=
  locations.flatMap (processLoc fs pattern)

mutual

/-- Well-formedness of a directory tree: within any one directory the entry
names are pairwise distinct (as they are on a real filesystem). -/
def Node.wfb : Node → Bool
  | Node.file => true
  | Node.dir es => decide ((es.map Prod.fst).Nodup) && Node.wfbList es

/-- Well-formedness of every node of a listing. -/
def Node.wfbList : List (String × Node) → Bool
  | [] => true
  | e :: rest => Node.wfb e.2 && Node.wfbList rest

end


/-! ### Observable effects

The script's side effects are modelled as a trace of events plus the current
working directory.  `_spawn` records the full argument vector of the child
process (the exit status is discarded by every caller of `_spawn` in
`run.py`, so it is not modelled).  Printing records one event per output
line.  `os.environ[...] = ...` records an environment assignment. -/

inductive Ev where
  | line : String → Ev
  | callp : List String → Ev
  | setenv : String → String → Ev
deriving DecidableEq

/-- Program state: the current working directory (a string, as returned by
`os.getcwd`) and the trace of events so far. -/
structure PState where
  cwd : String
  trace : List Ev
deriving DecidableEq

/-- Append events to the trace. -/
def PState.emit (st : PState) (es : List Ev) : PState :=
  { st with trace := st.trace ++ es }

/-- The argument vectors of the subprocesses spawned in a trace. -/
def callsOf (t : List Ev) : List (List String) :=
  t.filterMap fun e => match e with
    | Ev.callp a => some a
    | _ => none

/-- The lines printed in a trace. -/
def outOf (t : List Ev) : List String :=
  t.filterMap fun e => match e with
    | Ev.line s => some s
    | _ => none

/-- The binary `_Python_path = sys.executable`.  The concrete value is
environment-dependent; it is modelled as a fixed constant, distinct from the
other command names used by the script. -/
def pythonPath : String := "python"

/-- The command `_Sphinx_path = 'sphinx-build'`. -/
def sphinxPath : String := "sphinx-build"

/-- The function `_spawn(*args)`: run a command in a sub-process.  Only the argument
vector is observable; the returned status is ignored by all callers. -/
def spawnp (args : List String) (st : PState) : PState :=
  st.emit [Ev.callp args]

/-- A value held by the parsed `-v` (`--verbose`) option.  The `optparse`
declaration (lines 137-138 of `run.py`) has no `type='int'`, so the default
is the integer `2` but any value supplied on the command line is stored as
the given string. -/
inductive PyVal where
  | int : Int → PyVal
  | str : String → PyVal
deriving DecidableEq

/-- The comparison `verbose > 0` as the script executes it, under the
Python 2 cross-type comparison rules it was written for: an integer
verbosity is compared numerically, while a string verbosity always compares
greater than the integer `0` (under Python 3 the same comparison raises
`TypeError` instead, aborting the run at the first headline — in neither
case is a string verbosity silent). -/
def pyGtZero : PyVal → Bool
  | PyVal.int n => n > 0
  | PyVal.str _ => true

/-- Python `str()` of a verbosity value. -/
def pyStr : PyVal → String
  | PyVal.int n => toString n
  | PyVal.str s => s

/-- The function `print2(text, verbose=1)`: print a headline.  With `verbose > 0` it
prints a blank line and, when the text is nonempty, the text and an
underline of `=` of the same length; with verbosity 0 it prints nothing. -/
def print2 (text : String) (verbose : PyVal) (st : PState) : PState :=
  if pyGtZero verbose then
    st.emit ([Ev.line ""] ++
      (if text ≠ "" then
        [Ev.line text, Ev.line (String.mk (List.replicate text.length '='))]
       else []))
  else st

/-- The function `run_unittests(project_path, dirs=[], verbose=2)`: set `PYTHONPATH` to
the project root, then invoke `test/runtest.py` with `-verbose <level>`
followed by the directory arguments verbatim. -/
def run_unittests (project_path : String) (dirs : List Path) (verbose : PyVal)
    (st : PState) : PState :=
  let st := st.emit [Ev.setenv "PYTHONPATH" project_path]
  spawnp ([pythonPath, "test/runtest.py", "-verbose", pyStr verbose]
    ++ dirs.map pathStr) st

/-- The function `run_pychecker(dirs, OKd=False, verbose=1)`: for every file matching
`'[^\n]*.py$'` under the given roots, print a `CHECKING` line when verbose
and invoke the `tools/pychok.py` postprocessor on that single file, with
`'--'` in place of `'-no-OKd'` when OKd warnings are included. -/
def run_pychecker (fs : Node) (dirs : List Path) (OKd : Bool) (verbose : PyVal)
    (st : PState) : PState :=
  let no_OKd := if OKd then "--" else "-no-OKd"
  let sources := get_files fs dirs pychok_pattern
  sources.foldl (fun st src =>
    let st := if pyGtZero verbose then
        st.emit [Ev.line ("CHECKING " ++ pathStr src ++ " ...")]
      else st
    spawnp [pythonPath, "tools/pychok.py", no_OKd, "--stdlib", "--quiet",
      pathStr src] st) st

/-- The function `dir_clear(path)`: spawn `/bin/mkdir -p <path>` and then
`/bin/rm -rf <path>/*`.  Note that the second argument vector contains the
literal string `<path>/*`. -/
def dir_clear (path : String) (st : PState) : PState :=
  let st := spawnp ["/bin/mkdir", "-p", path] st
  spawnp ["/bin/rm", "-rf", path ++ "/*"] st

/-- The function `run_sphinx(doc_path, builders=['html','doctest'], paper='')`: remember
the working directory, change into the documentation root, run each builder
(clearing its output directory and the shared doctree cache first), and
change back. -/
def run_sphinx (doc_path : String) (builders : List String) (paper : String)
    (st : PState) : PState :=
  let cwd := st.cwd
  let st := { st with cwd := doc_path }
  let st := builders.foldl (fun st builder =>
    let dir := "build/" ++ builder
    let st := dir_clear dir st
    let st := dir_clear "build/doctrees" st
    let opts := ["-d", "build/doctrees"]
      ++ (if paper ≠ "" then ["-D", "latex_paper_size=" ++ paper] else [])
      ++ ["source", dir]
    spawnp ([sphinxPath, "-b", builder] ++ opts) st) st
  { st with cwd := cwd }

/-- The configuration record produced by the option parser, with the
`optparse` defaults of `run.py`.  The verbosity field holds the integer
default or the string given on the command line (see `PyVal`). -/
structure Options where
  all : Bool := false
  changes : Bool := false
  doctest : Bool := false
  html : Bool := false
  latex : Bool := false
  paper : String := "letter"
  linkcheck : Bool := false
  pychecker : Bool := false
  OKd : Bool := false
  V : PyVal := PyVal.int 2
  test : Bool := false
deriving DecidableEq

/-- The `optparse` defaults. -/
def defaultOptions : Options := {}

/-- The `--all` expansion performed by `main` (lines 147-151 of `run.py`):
when the flag is set, `html`, `doctest`, `test` and `pychecker` are
force-enabled. -/
def applyAll (o : Options) : Options :=
  if o.all then { o with html := true, doctest := true, test := true, pychecker := true }
  else o

/-- Python `args or [default]`: an empty positional-argument list falls back
to the given default. -/
def orDefault (args : List Path) (d : List Path) : List Path :=
  if args.isEmpty then d else args

/-- The function `main()` of `run.py`, given the parsed options, the leftover positional
arguments, the project root (`abspath(dirname(argv[0]))`, abstract here) and
the filesystem.  The guarded blocks appear exactly in source order:
pychecker, changes, doctest, html, latex, linkcheck, test. -/
def main (fs : Node) (o : Options) (args : List Path) (project_path : String)
    (st : PState) : PState :=
  let doc_path := project_path ++ "/doc"
  let o := applyAll o
  let st := if o.pychecker then
      run_pychecker fs (orDefault args [["pympler"]]) o.OKd o.V
        (print2 "Running pychecker" o.V st)
    else st
  let st := if o.changes then
      run_sphinx doc_path ["changes"] ""
        (print2 "Creating documentation changes" o.V st)
    else st
  let st := if o.doctest then
      run_sphinx doc_path ["doctest"] ""
        (print2 "Running doctest" o.V st)
    else st
  let st := if o.html then
      run_sphinx doc_path ["html"] ""
        (print2 "Creating HTML documention" o.V st)
    else st
  let st := if o.latex then
      run_sphinx doc_path ["latex"] o.paper
        (print2 "Creating LaTex (PDF) documention" o.V st)
    else st
  let st := if o.linkcheck then
      run_sphinx doc_path ["linkcheck"] ""
        (print2 "Checking documention links" o.V st)
    else st
  let st := if o.test then
      run_unittests project_path (orDefault args [["test"]]) o.V
        (print2 "Running unittests" o.V st)
    else st
  st

/-- The initial state of one program invocation: an arbitrary working
directory and an empty trace. -/
def initState (cwd : String) : PState := ⟨cwd, []⟩


/-! ### Filesystem effect of `dir_clear`

`dir_clear` shells out to `/bin/mkdir -p <path>` and `/bin/rm -rf <path>/*`.
Because `_spawn` hands the argument vector to `subprocess.call` without a
shell, no glob expansion takes place: `rm` receives the literal name
`<path>/*`.  The two definitions below model the standard effect of those
two commands on the tree. -/

/-- A fresh chain of empty directories along the given components. -/
def mkChain : List String → Node
  | [] => Node.dir []
  | c :: cs => Node.dir [(c, mkChain cs)]

/-- Effect of `/bin/mkdir -p <path>`: create the directory and any missing
parents.  If an existing file blocks the path, `mkdir` fails and the tree is
unchanged. -/
def mkdirp : List String → Node → Node
  | [], n => n
  | _ :: _, Node.file => Node.file
  | c :: cs, Node.dir es =>
      if es.any (fun e => e.1 = c) then
        Node.dir (es.map fun e => if e.1 = c then (e.1, mkdirp cs e.2) else e)
      else
        Node.dir (es ++ [(c, mkChain cs)])

/-- Effect of `/bin/rm -rf <path>`: remove the entry named by the path, if
any (`-f` makes a missing entry a no-op). -/
def rmTree : List String → Node → Node
  | [], n => n
  | [c], Node.dir es => Node.dir (es.filter fun e => e.1 ≠ c)
  | [_], Node.file => Node.file
  | _ :: _ :: _, Node.file => Node.file
  | c :: cs, Node.dir es =>
      Node.dir (es.map fun e => if e.1 = c then (e.1, rmTree cs e.2) else e)

/-- The net filesystem effect of `dir_clear(path)`: `mkdir -p <path>`
followed by `rm -rf` of the literal entry `<path>/*` (the `*` is not
expanded, since `subprocess.call` is used without a shell). -/
def dir_clear_fs (path : List String) (fs : Node) : Node :=
  rmTree (path ++ ["*"]) (mkdirp path fs)

/-! ### Pure traces of the runners

Each runner only appends to the trace; the following functions compute the
appended events, and the lemmas identify them with the stateful runners. -/

/-- Events printed by `print2`. -/
def print2Trace (text : String) (verbose : PyVal) : List Ev :=
  if pyGtZero verbose then
    [Ev.line ""] ++
      (if text ≠ "" then
        [Ev.line text, Ev.line (String.mk (List.replicate text.length '='))]
       else [])
  else []

/-- The pychecker postprocessor invocation for one source file. -/
def pychokCall (OKd : Bool) (src : Path) : List String :=
  [pythonPath, "tools/pychok.py", if OKd then "--" else "-no-OKd",
   "--stdlib", "--quiet", pathStr src]

/-- Events of `run_pychecker`. -/
def pychekTrace (fs : Node) (dirs : List Path) (OKd : Bool) (verbose : PyVal) :
    List Ev :=
  (get_files fs dirs pychok_pattern).flatMap fun src =>
    (if pyGtZero verbose then [Ev.line ("CHECKING " ++ pathStr src ++ " ...")] else [])
    ++ [Ev.callp (pychokCall OKd src)]

/-- Events of `dir_clear`. -/
def dirClearTrace (path : String) : List Ev :=
  [Ev.callp ["/bin/mkdir", "-p", path], Ev.callp ["/bin/rm", "-rf", path ++ "/*"]]

/-- The `sphinx-build` invocation for one builder. -/
def sphinxCall (builder : String) (paper : String) : List String :=
  [sphinxPath, "-b", builder, "-d", "build/doctrees"]
  ++ (if paper ≠ "" then ["-D", "latex_paper_size=" ++ paper] else [])
  ++ ["source", "build/" ++ builder]

/-- Events of `run_sphinx`. -/
def sphinxTrace (builders : List String) (paper : String) : List Ev :=
  builders.flatMap fun builder =>
    dirClearTrace ("build/" ++ builder) ++ dirClearTrace "build/doctrees"
    ++ [Ev.callp (sphinxCall builder paper)]

/-- The `runtest.py` invocation. -/
def runtestCall (dirs : List Path) (verbose : PyVal) : List String :=
  [pythonPath, "test/runtest.py", "-verbose", pyStr verbose]
  ++ dirs.map pathStr

/-- Events of `run_unittests`. -/
def unittestsTrace (project_path : String) (dirs : List Path) (verbose : PyVal) :
    List Ev :=
  [Ev.setenv "PYTHONPATH" project_path, Ev.callp (runtestCall dirs verbose)]

/-- Events of `main`. -/
def mainTrace (fs : Node) (o : Options) (args : List Path)
    (project_path : String) : List Ev :=
  (if (applyAll o).pychecker then
      print2Trace "Running pychecker" (applyAll o).V
      ++ pychekTrace fs (orDefault args [["pympler"]]) (applyAll o).OKd (applyAll o).V
    else [])
  ++ (if (applyAll o).changes then
      print2Trace "Creating documentation changes" (applyAll o).V
      ++ sphinxTrace ["changes"] ""
    else [])
  ++ (if (applyAll o).doctest then
      print2Trace "Running doctest" (applyAll o).V ++ sphinxTrace ["doctest"] ""
    else [])
  ++ (if (applyAll o).html then
      print2Trace "Creating HTML documention" (applyAll o).V
      ++ sphinxTrace ["html"] ""
    else [])
  ++ (if (applyAll o).latex then
      print2Trace "Creating LaTex (PDF) documention" (applyAll o).V
      ++ sphinxTrace ["latex"] (applyAll o).paper
    else [])
  ++ (if (applyAll o).linkcheck then
      print2Trace "Checking documention links" (applyAll o).V
      ++ sphinxTrace ["linkcheck"] ""
    else [])
  ++ (if (applyAll o).test then
      print2Trace "Running unittests" (applyAll o).V
      ++ unittestsTrace project_path (orDefault args [["test"]]) (applyAll o).V
    else [])

/-! ### Classification of subprocess invocations

`callKind` recognises, from its argument vector alone, which task runner a
subprocess invocation belongs to, following the fixed dispatch order of
`main` (helper invocations such as `mkdir`/`rm` are unclassified). -/

/-- The runner a spawned argument vector belongs to, as its position in the
fixed dispatch order: pychecker 0, changes 1, doctest 2, html 3, latex 4,
linkcheck 5, test 6. -/
def callKind (a : List String) : Option Nat :=
  if a.take 2 = [pythonPath, "tools/pychok.py"] then some 0
  else if a.take 3 = [sphinxPath, "-b", "changes"] then some 1
  else if a.take 3 = [sphinxPath, "-b", "doctest"] then some 2
  else if a.take 3 = [sphinxPath, "-b", "html"] then some 3
  else if a.take 3 = [sphinxPath, "-b", "latex"] then some 4
  else if a.take 3 = [sphinxPath, "-b", "linkcheck"] then some 5
  else if a.take 2 = [pythonPath, "test/runtest.py"] then some 6
  else none

/-! ### Concrete fixtures used by witnesses and counterexamples -/

/-- A filesystem with the single top-level file `ab`. -/
def fsC2 : Node := Node.dir [("ab", Node.file)]

/-- The compiled pattern `'a'`: no trailing `$`, so `re.match` accepts any
string starting with `a`. -/
def patC2 : PyPattern := ⟨Regex.chr 'a', false⟩

/-- A filesystem with the single top-level file `a.py`. -/
def fsC9 : Node := Node.dir [("a.py", Node.file)]

/-- The compiled empty pattern `''`, which `re.match` accepts everywhere. -/
def patC9 : PyPattern := ⟨Regex.eps, false⟩

/-- A directory `d` containing a stale file, for exercising `dir_clear`. -/
def fsC4 : Node := Node.dir [("d", Node.dir [("stale.txt", Node.file)])]

/-- A package directory containing a `.py` file whose name contains a
newline character. -/
def fsC6 : Node := Node.dir [("pkg", Node.dir [("a\nb.py", Node.file)])]

/-- A package directory containing the single source file `pkg/a.py`. -/
def fsPkg : Node := Node.dir [("pkg", Node.dir [("a.py", Node.file)])]

/-- A package directory containing the single source file `pympler/m.py`. -/
def fsPympler : Node := Node.dir [("pympler", Node.dir [("m.py", Node.file)])]

/-- Options as parsed from `--test` alone. -/
def testOnlyOptions : Options := { defaultOptions with test := true }

/-- Options as parsed from `--pychecker --OKd`. -/
def pycheckerOKdOptions : Options :=
  { defaultOptions with pychecker := true, OKd := true }

/-- Options as parsed from `--latex` alone. -/
def latexOnlyOptions : Options := { defaultOptions with latex := true }

/-- Options as parsed from `--all -v 0`: `optparse` stores the supplied
verbosity as the string `"0"`, since the option has no `type='int'`. -/
def allVZeroOptions : Options :=
  { defaultOptions with all := true, V := PyVal.str "0" }

/-! ### Matcher completeness and trace lemmas -/

theorem RMatches.nullable_of_nil {r : Regex} (h : RMatches r []) :
    r.nullable = true := by
  generalize hl : ([] : List Char) = l at h
  induction h with
  | eps => rfl
  | pred _ => simp at hl
  | catm h₁ h₂ ih₁ ih₂ =>
      rcases List.append_eq_nil.mp hl.symm with ⟨e₁, e₂⟩
      simp [Regex.nullable, ih₁ e₁.symm, ih₂ e₂.symm]
  | altL h ih => simp [Regex.nullable, ih hl]
  | altR h ih => simp [Regex.nullable, ih hl]
  | starNil => rfl
  | starCons h₁ h₂ ih₁ ih₂ => rfl

theorem RMatches.deriv_of_cons {r : Regex} {c : Char} {l : List Char}
    (h : RMatches r (c :: l)) : RMatches (r.deriv c) l := by
  generalize hl : (c :: l : List Char) = l' at h
  induction h generalizing c l with
  | eps => simp at hl
  | pred hp =>
      rename_i p c'
      rcases hl with hl
      have hc : c = c' := by simpa using congrArg (fun t => t.head?) hl
      have hnil : l = [] := by simpa using congrArg (fun t => t.tail) hl
      subst hc; subst hnil
      simpa [Regex.deriv, hp] using RMatches.eps
  | @catm r s l₁ l₂ h₁ h₂ ih₁ ih₂ =>
      cases l₁ with
      | nil =>
          have hn : r.nullable = true := h₁.nullable_of_nil
          have h₂' : RMatches (s.deriv c) l := ih₂ (by simpa using hl)
          simpa [Regex.deriv, hn] using RMatches.altR h₂'
      | cons a l₁' =>
          have ha : c = a := by
            have := congrArg (fun t => t.head?) hl; simpa using this
          have hl' : l = l₁' ++ l₂ := by
            have := congrArg (fun t => t.tail) hl; simpa using this
          subst ha
          have h₁' : RMatches (r.deriv c) l₁' := ih₁ rfl
          by_cases hn : r.nullable = true
          · have : RMatches (.cat (r.deriv c) s) (l₁' ++ l₂) :=
              RMatches.catm h₁' h₂
            rw [hl']; simpa [Regex.deriv, hn] using RMatches.altL this
          · have hn' : r.nullable = false := by
              cases hnb : r.nullable with
              | false => rfl
              | true => exact absurd hnb hn
            have : RMatches (.cat (r.deriv c) s) (l₁' ++ l₂) :=
              RMatches.catm h₁' h₂
            rw [hl']; simpa [Regex.deriv, hn'] using this
  | altL h ih =>
      have := ih hl
      simpa [Regex.deriv] using RMatches.altL this
  | altR h ih =>
      have := ih hl
      simpa [Regex.deriv] using RMatches.altR this
  | starNil => simp at hl
  | @starCons r l₁ l₂ h₁ h₂ ih₁ ih₂ =>
      cases l₁ with
      | nil => exact ih₂ (by simpa using hl)
      | cons a l₁' =>
          have ha : c = a := by
            have := congrArg (fun t => t.head?) hl; simpa using this
          have hl' : l = l₁' ++ l₂ := by
            have := congrArg (fun t => t.tail) hl; simpa using this
          subst ha
          have h₁' : RMatches (r.deriv c) l₁' := ih₁ rfl
          have : RMatches (.cat (r.deriv c) (.star r)) (l₁' ++ l₂) :=
            RMatches.catm h₁' h₂
          rw [hl']; simpa [Regex.deriv] using this

/-- Completeness of the executable matcher with respect to the declarative
matching relation. -/
theorem RMatches.rmatch_eq_true {r : Regex} {l : List Char}
    (h : RMatches r l) : r.rmatch l = true := by
  induction l generalizing r with
  | nil => simpa [Regex.rmatch] using h.nullable_of_nil
  | cons c cs ih => simpa [Regex.rmatch] using ih h.deriv_of_cons

theorem print2_trace (text : String) (verbose : PyVal) (st : PState) :
    (print2 text verbose st).trace = st.trace ++ print2Trace text verbose := by
  cases h : pyGtZero verbose <;> simp [print2, print2Trace, PState.emit, h]

theorem spawnp_trace (args : List String) (st : PState) :
    (spawnp args st).trace = st.trace ++ [Ev.callp args] := rfl

theorem run_unittests_trace (project_path : String) (dirs : List Path)
    (verbose : PyVal) (st : PState) :
    (run_unittests project_path dirs verbose st).trace
      = st.trace ++ unittestsTrace project_path dirs verbose := by
  simp [run_unittests, unittestsTrace, runtestCall, spawnp, PState.emit]

theorem foldl_emit_trace {α : Type} (g : α → List Ev)
    (f : PState → α → PState)
    (hf : ∀ st x, (f st x).trace = st.trace ++ g x) :
    ∀ (l : List α) (st : PState),
      (l.foldl f st).trace = st.trace ++ l.flatMap g := by
  intro l
  induction l with
  | nil => intro st; simp
  | cons x xs ih =>
      intro st
      simp [List.foldl_cons, ih (f st x), hf st x]

theorem run_pychecker_trace (fs : Node) (dirs : List Path) (OKd : Bool)
    (verbose : PyVal) (st : PState) :
    (run_pychecker fs dirs OKd verbose st).trace
      = st.trace ++ pychekTrace fs dirs OKd verbose := by
  unfold run_pychecker pychekTrace
  refine foldl_emit_trace _ _ ?_ _ st
  intro st src
  cases h : pyGtZero verbose <;>
    simp [spawnp, PState.emit, h, pychokCall]

theorem dir_clear_trace (path : String) (st : PState) :
    (dir_clear path st).trace = st.trace ++ dirClearTrace path := by
  simp [dir_clear, dirClearTrace, spawnp, PState.emit]

theorem run_sphinx_trace (doc_path : String) (builders : List String)
    (paper : String) (st : PState) :
    (run_sphinx doc_path builders paper st).trace
      = st.trace ++ sphinxTrace builders paper := by
  unfold run_sphinx sphinxTrace
  have h := foldl_emit_trace
    (fun builder => dirClearTrace ("build/" ++ builder)
      ++ dirClearTrace "build/doctrees" ++ [Ev.callp (sphinxCall builder paper)])
    (fun st builder =>
      let dir := "build/" ++ builder
      let st := dir_clear dir st
      let st := dir_clear "build/doctrees" st
      let opts := ["-d", "build/doctrees"]
        ++ (if paper ≠ "" then ["-D", "latex_paper_size=" ++ paper] else [])
        ++ ["source", dir]
      spawnp ([sphinxPath, "-b", builder] ++ opts) st)
    (by intro st builder
        simp [dir_clear_trace, spawnp, PState.emit, sphinxCall, dirClearTrace,
          dir_clear])
    builders { st with cwd := doc_path }
  simpa using h

theorem main_trace (fs : Node) (o : Options) (args : List Path)
    (project_path : String) (st : PState) :
    (main fs o args project_path st).trace
      = st.trace ++ mainTrace fs o args project_path := by
  unfold main mainTrace
  cases hp : (applyAll o).pychecker <;> cases hc : (applyAll o).changes <;>
    cases hd : (applyAll o).doctest <;> cases hh : (applyAll o).html <;>
    cases hl : (applyAll o).latex <;> cases hi : (applyAll o).linkcheck <;>
    cases ht : (applyAll o).test <;>
      simp [hp, hc, hd, hh, hl, hi, ht, run_pychecker_trace, run_sphinx_trace,
        run_unittests_trace, print2_trace]


/-! ### Claim C1: the `--all` expansion -/

/-- Claim C1, counterexample: the claim states that `--all` does not enable
the doctest flag, but `main` force-enables `doctest` (line 149 of `run.py`):
starting from the parser defaults with only `--all` set, the expanded
options have `doctest = true` although it was `false` before. -/
theorem C1_counterexample :
    defaultOptions.doctest = false ∧
    (applyAll { defaultOptions with all := true }).doctest = true :=
  ⟨rfl, rfl⟩

/-- Claim C1 (amended): when the "run everything" flag is set, the Option
Dispatcher force-enables exactly the pychecker, HTML-docs, doctest and test
flags, and leaves the LaTeX, linkcheck and changes flags (and every other
field) unchanged. -/
theorem C1_all_expansion (o : Options) (h : o.all = true) :
    applyAll o =
      { o with pychecker := true, html := true, doctest := true, test := true } := by
  simp [applyAll, h]

/-- Claim C1, witness: the amended statement at the concrete options record
parsed from `--all`. -/
theorem C1_witness :
    applyAll { defaultOptions with all := true } =
      { defaultOptions with
          all := true, pychecker := true, html := true, doctest := true, test := true } :=
  C1_all_expansion { defaultOptions with all := true } rfl

/-! ### Claim C4: `dir_clear` does not empty the directory -/

/-- Claim C4: `dir_clear` promises ("Clear a directory.") that the path is an
empty directory afterwards, but on a directory `d` containing `stale.txt`
the call leaves the tree completely unchanged: `mkdir -p d` is a no-op and
`rm -rf` receives the literal argument `d/*` (no shell, hence no glob
expansion), which names no existing entry.  The subprocess trace confirms
the literal `d/*` argument. -/
theorem C4_dir_clear_not_cleared :
    dir_clear_fs ["d"] fsC4 = fsC4 ∧
    lookup ["d"] (dir_clear_fs ["d"] fsC4) = some (Node.dir [("stale.txt", Node.file)]) ∧
    (dir_clear "d" (initState "w")).trace =
      [Ev.callp ["/bin/mkdir", "-p", "d"], Ev.callp ["/bin/rm", "-rf", "d/*"]] :=
  ⟨rfl, rfl, rfl⟩

/-! ### Claim C5: `run_sphinx` restores the working directory -/

/-- Claim C5: for every documentation root and every list of builders, after
the full builder loop `run_sphinx` restores the working directory observed
by the caller to its value before the call. -/
theorem C5_run_sphinx_restores_cwd (doc_path : String) (builders : List String)
    (paper : String) (st : PState) :
    (run_sphinx doc_path builders paper st).cwd = st.cwd := rfl

/-! ### Claim C7: `--test` with no positional arguments -/

/-- Claim C7: invoked as `--test` with no positional arguments, the program
prints the headline, sets `PYTHONPATH` to the project root, and then spawns
`test/runtest.py` through the Python binary with `-verbose 2` followed by
the default directory list `['test']` — in exactly this order. -/
theorem C7_test_defaults (fs : Node) (project_path cwd : String) :
    (main fs testOnlyOptions [] project_path (initState cwd)).trace =
      [Ev.line "", Ev.line "Running unittests", Ev.line "=================",
       Ev.setenv "PYTHONPATH" project_path,
       Ev.callp [pythonPath, "test/runtest.py", "-verbose", "2", "test"]] := by
  rw [main_trace]
  rfl


/-! ### Claim C2: `get_files` matching is a prefix match, not a full match -/

/-- Claim C2, counterexample: with pattern `'a'` (no trailing `$`) and a root
file named `ab`, `get_files` returns the file although its base name does
not fully match the pattern — `pat.match` only anchors at the start, so a
match of the proper prefix `a` suffices. -/
theorem C2_counterexample :
    get_files fsC2 [["ab"]] patC2 = [["ab"]] ∧
    fullMatch patC2 (basename ["ab"]) = false :=
  ⟨rfl, rfl⟩

/-- Claim C2 (amended): every path returned by `get_files` has a base name
accepted by `pat.match`, i.e. matched by the pattern anchored at the start
of the string (and up to its end exactly when the pattern ends in `$`); a
full-string match is not guaranteed for patterns without a trailing `$`. -/
theorem C2_match_at_start (fs : Node) (locs : List Path) (p : PyPattern)
    (x : Path) (hx : x ∈ get_files fs locs p) :
    pyMatch p (basename x) = true := by
  rcases List.mem_flatMap.mp hx with ⟨loc, _, hmem⟩
  unfold processLoc at hmem
  cases hlk : lookup loc fs with
  | none => rw [hlk] at hmem; simp at hmem
  | some n =>
      cases n with
      | file =>
          rw [hlk] at hmem
          by_cases hpm : pyMatch p (basename loc) = true
          · simp [hpm] at hmem
            rw [hmem, hpm]
          · simp [hpm] at hmem
      | dir es =>
          rw [hlk] at hmem
          exact (List.mem_filter.mp hmem).2

/-- Claim C2, witness: the amended statement at the concrete filesystem with
one file `ab` and the pattern `'a'`. -/
theorem C2_witness : pyMatch patC2 (basename ["ab"]) = true :=
  C2_match_at_start fsC2 [["ab"]] patC2 ["ab"] (by decide)

/-! ### Claim C9: contribution of file roots and of missing roots -/

/-- Claim C9, counterexample: a root path that is itself a matching file does
not, in general, appear in the result exactly once — if the root list
mentions the file twice, the result contains it twice. -/
theorem C9_counterexample :
    lookup ["a.py"] fsC9 = some Node.file ∧
    pyMatch patC9 (basename ["a.py"]) = true ∧
    List.count ["a.py"] (get_files fsC9 [["a.py"], ["a.py"]] patC9) = 2 :=
  ⟨rfl, by decide, by decide⟩

/-- Claim C9 (amended): a root path that is an existing file whose base name
matches the pattern contributes exactly one verbatim entry per occurrence in
the root list — in particular, discovery over that single root returns
exactly that path — and a root that resolves to nothing contributes zero
entries (removing it anywhere from the root list leaves the result
unchanged) and causes no error. -/
theorem C9_file_and_missing_roots (fs : Node) (p : PyPattern) (r r' : Path)
    (l1 l2 : List Path) :
    (lookup r fs = some Node.file → pyMatch p (basename r) = true →
      get_files fs [r] p = [r]) ∧
    (lookup r' fs = none →
      get_files fs (l1 ++ r' :: l2) p = get_files fs (l1 ++ l2) p) := by
  constructor
  · intro h1 h2
    simp [get_files, processLoc, h1, h2]
  · intro h
    simp [get_files, processLoc, h]

/-- Claim C9, witness: the amended statement at a filesystem with the file
`a.py`, the matching empty pattern, and the missing root `zzz`. -/
theorem C9_witness :
    get_files fsC9 [["a.py"]] patC9 = [["a.py"]] ∧
    get_files fsC9 ([["a.py"]] ++ ["zzz"] :: []) patC9 =
      get_files fsC9 ([["a.py"]] ++ []) patC9 :=
  ⟨(C9_file_and_missing_roots fsC9 patC9 ["a.py"] ["zzz"] [["a.py"]] []).1 rfl (by decide),
   (C9_file_and_missing_roots fsC9 patC9 ["a.py"] ["zzz"] [["a.py"]] []).2 rfl⟩


/-! ### Helper lemmas about traces -/

theorem callsOf_nil : callsOf [] = [] := rfl

theorem outOf_nil : outOf [] = [] := rfl

theorem callsOf_append (t₁ t₂ : List Ev) :
    callsOf (t₁ ++ t₂) = callsOf t₁ ++ callsOf t₂ := by
  simp [callsOf, List.filterMap_append]

theorem outOf_append (t₁ t₂ : List Ev) :
    outOf (t₁ ++ t₂) = outOf t₁ ++ outOf t₂ := by
  simp [outOf, List.filterMap_append]

theorem flatMap_singleton_eq_map {α β : Type} (g : α → List β) (h : α → β)
    (l : List α) (hg : ∀ x, g x = [h x]) : l.flatMap g = l.map h := by
  induction l with
  | nil => rfl
  | cons x xs ih => simp [hg, ih]

theorem print2Trace_nonpos (text : String) (v : PyVal)
    (hv : pyGtZero v = false) : print2Trace text v = [] := by
  simp [print2Trace, hv]

theorem callsOf_print2Trace (text : String) (v : PyVal) :
    callsOf (print2Trace text v) = [] := by
  cases hv : pyGtZero v <;> by_cases ht : text = "" <;>
    simp [print2Trace, callsOf, hv, ht]

theorem callsOf_pychekTrace (fs : Node) (dirs : List Path) (OKd : Bool)
    (v : PyVal) :
    callsOf (pychekTrace fs dirs OKd v)
      = (get_files fs dirs pychok_pattern).map (pychokCall OKd) := by
  unfold pychekTrace callsOf
  rw [List.filterMap_flatMap]
  refine flatMap_singleton_eq_map _ _ _ ?_
  intro src
  cases hv : pyGtZero v <;> simp [hv, callsOf]

theorem outOf_pychekTrace_nonpos (fs : Node) (dirs : List Path) (OKd : Bool)
    (v : PyVal) (hv : pyGtZero v = false) :
    outOf (pychekTrace fs dirs OKd v) = [] := by
  unfold pychekTrace outOf
  rw [List.filterMap_flatMap]
  simp [hv]

theorem callsOf_sphinxTrace_single (b paper : String) :
    callsOf (sphinxTrace [b] paper)
      = [["/bin/mkdir", "-p", "build/" ++ b],
         ["/bin/rm", "-rf", "build/" ++ b ++ "/*"],
         ["/bin/mkdir", "-p", "build/doctrees"],
         ["/bin/rm", "-rf", "build/doctrees/*"],
         sphinxCall b paper] := by
  simp [sphinxTrace, dirClearTrace, callsOf]

theorem outOf_sphinxTrace (builders : List String) (paper : String) :
    outOf (sphinxTrace builders paper) = [] := by
  unfold sphinxTrace outOf
  rw [List.filterMap_flatMap]
  simp [dirClearTrace]

theorem callsOf_unittestsTrace (pp : String) (dirs : List Path) (v : PyVal) :
    callsOf (unittestsTrace pp dirs v) = [runtestCall dirs v] := rfl

theorem outOf_unittestsTrace (pp : String) (dirs : List Path) (v : PyVal) :
    outOf (unittestsTrace pp dirs v) = [] := rfl

theorem applyAll_V (o : Options) : (applyAll o).V = o.V := by
  by_cases h : o.all = true <;> simp [applyAll, h]

theorem applyAll_OKd (o : Options) : (applyAll o).OKd = o.OKd := by
  by_cases h : o.all = true <;> simp [applyAll, h]

theorem applyAll_paper (o : Options) : (applyAll o).paper = o.paper := by
  by_cases h : o.all = true <;> simp [applyAll, h]

theorem applyAll_pychecker_of_all {o : Options} (h : o.all = true) :
    (applyAll o).pychecker = true := by
  simp [applyAll, h]

theorem applyAll_html_of_all {o : Options} (h : o.all = true) :
    (applyAll o).html = true := by
  simp [applyAll, h]

theorem applyAll_test_of_all {o : Options} (h : o.all = true) :
    (applyAll o).test = true := by
  simp [applyAll, h]

theorem outOf_mainTrace_nonpos (fs : Node) (o : Options) (args : List Path)
    (pp : String) (hv : pyGtZero (applyAll o).V = false) :
    outOf (mainTrace fs o args pp) = [] := by
  unfold mainTrace
  cases hp : (applyAll o).pychecker <;> cases hc : (applyAll o).changes <;>
    cases hd : (applyAll o).doctest <;> cases hh : (applyAll o).html <;>
    cases hl : (applyAll o).latex <;> cases hi : (applyAll o).linkcheck <;>
    cases ht : (applyAll o).test <;>
      simp [hp, hc, hd, hh, hl, hi, ht, outOf_append, outOf_sphinxTrace,
        outOf_unittestsTrace, outOf_pychekTrace_nonpos _ _ _ _ hv,
        print2Trace_nonpos _ _ hv, outOf_nil]


theorem mem_mainTrace_pychek {fs : Node} {o : Options} {args : List Path}
    {pp : String} {x : Ev} (h : (applyAll o).pychecker = true)
    (hx : x ∈ print2Trace "Running pychecker" (applyAll o).V
      ++ pychekTrace fs (orDefault args [["pympler"]]) (applyAll o).OKd (applyAll o).V) :
    x ∈ mainTrace fs o args pp := by
  unfold mainTrace
  refine List.mem_append_left _ (List.mem_append_left _ (List.mem_append_left _
    (List.mem_append_left _ (List.mem_append_left _ (List.mem_append_left _ ?_)))))
  rw [if_pos h]
  exact hx

theorem mem_mainTrace_html {fs : Node} {o : Options} {args : List Path}
    {pp : String} {x : Ev} (h : (applyAll o).html = true)
    (hx : x ∈ print2Trace "Creating HTML documention" (applyAll o).V
      ++ sphinxTrace ["html"] "") :
    x ∈ mainTrace fs o args pp := by
  unfold mainTrace
  refine List.mem_append_left _ (List.mem_append_left _ (List.mem_append_left _
    (List.mem_append_right _ ?_)))
  rw [if_pos h]
  exact hx

theorem mem_mainTrace_test {fs : Node} {o : Options} {args : List Path}
    {pp : String} {x : Ev} (h : (applyAll o).test = true)
    (hx : x ∈ print2Trace "Running unittests" (applyAll o).V
      ++ unittestsTrace pp (orDefault args [["test"]]) (applyAll o).V) :
    x ∈ mainTrace fs o args pp := by
  unfold mainTrace
  refine List.mem_append_right _ ?_
  rw [if_pos h]
  exact hx

/-! ### Claim C3: `--all` with verbosity 0 -/

/-- Claim C3: the claim fails on the code.  A real `--all -v 0` invocation
stores the verbosity as the string `"0"` (the `-v` option has no
`type='int'`), and `'0' > 0` is truthy under the Python 2 comparison rules
the script follows: the headline-printing path emits the blank padding line,
the headline and its underline (and the CHECKING progress lines), so the run
is not silent.  (Under Python 3 the same comparison raises `TypeError` at
the first headline, so no runner is invoked either.)  The runners themselves
are still invoked in the modelled Python 2 execution, as the third conjunct
shows. -/
theorem C3_verbosity_zero_not_silent :
    pyGtZero (PyVal.str "0") = true
    ∧ "Running pychecker"
        ∈ outOf (main fsPympler allVZeroOptions [] "P" (initState "W")).trace
    ∧ Ev.callp (sphinxCall "html" "")
        ∈ (main fsPympler allVZeroOptions [] "P" (initState "W")).trace :=
  ⟨rfl, by decide, by decide⟩

theorem mem_callsOf_ite {a : List String} {c : Prop} [Decidable c]
    {X : List Ev} (h : a ∈ callsOf (if c then X else [])) : a ∈ callsOf X := by
  by_cases hc : c
  · rwa [if_pos hc] at h
  · rw [if_neg hc] at h
    simp [callsOf] at h

/-- Every subprocess spawned by `main` is either a Python invocation, a
`mkdir`/`rm` helper, a `sphinx-build` run for one of the four builders that
never receive a paper size, or the latex `sphinx-build` run. -/
theorem mem_callsOf_mainTrace {fs : Node} {o : Options} {args : List Path}
    {pp : String} {a : List String}
    (ha : a ∈ callsOf (mainTrace fs o args pp)) :
    a.head? = some pythonPath ∨ a.head? = some "/bin/mkdir" ∨
    a.head? = some "/bin/rm" ∨
    (a = sphinxCall "changes" "" ∨ a = sphinxCall "doctest" "" ∨
      a = sphinxCall "html" "" ∨ a = sphinxCall "linkcheck" "") ∨
    a = sphinxCall "latex" (applyAll o).paper := by
  unfold mainTrace at ha
  rw [callsOf_append, callsOf_append, callsOf_append, callsOf_append,
    callsOf_append, callsOf_append] at ha
  simp only [List.mem_append] at ha
  rcases ha with ((((((h | h) | h) | h) | h) | h) | h)
  · have h := mem_callsOf_ite h
    rw [callsOf_append, callsOf_print2Trace, callsOf_pychekTrace] at h
    rcases List.mem_map.mp (by simpa using h) with ⟨src, _, hsrc⟩
    exact Or.inl (by rw [← hsrc]; rfl)
  · have h := mem_callsOf_ite h
    rw [callsOf_append, callsOf_print2Trace, callsOf_sphinxTrace_single] at h
    simp only [List.nil_append, List.mem_cons, List.mem_singleton] at h
    rcases h with h | h | h | h | h | h
    all_goals first
      | (exact Or.inr (Or.inl (by rw [h]; rfl)))
      | (exact Or.inr (Or.inr (Or.inl (by rw [h]; rfl))))
      | (exact Or.inr (Or.inr (Or.inr (Or.inl (Or.inl h)))))
      | (simp at h)
  · have h := mem_callsOf_ite h
    rw [callsOf_append, callsOf_print2Trace, callsOf_sphinxTrace_single] at h
    simp only [List.nil_append, List.mem_cons, List.mem_singleton] at h
    rcases h with h | h | h | h | h | h
    all_goals first
      | (exact Or.inr (Or.inl (by rw [h]; rfl)))
      | (exact Or.inr (Or.inr (Or.inl (by rw [h]; rfl))))
      | (exact Or.inr (Or.inr (Or.inr (Or.inl (Or.inr (Or.inl h))))))
      | (simp at h)
  · have h := mem_callsOf_ite h
    rw [callsOf_append, callsOf_print2Trace, callsOf_sphinxTrace_single] at h
    simp only [List.nil_append, List.mem_cons, List.mem_singleton] at h
    rcases h with h | h | h | h | h | h
    all_goals first
      | (exact Or.inr (Or.inl (by rw [h]; rfl)))
      | (exact Or.inr (Or.inr (Or.inl (by rw [h]; rfl))))
      | (exact Or.inr (Or.inr (Or.inr (Or.inl (Or.inr (Or.inr (Or.inl h)))))))
      | (simp at h)
  · have h := mem_callsOf_ite h
    rw [callsOf_append, callsOf_print2Trace, callsOf_sphinxTrace_single] at h
    simp only [List.nil_append, List.mem_cons, List.mem_singleton] at h
    rcases h with h | h | h | h | h | h
    all_goals first
      | (exact Or.inr (Or.inl (by rw [h]; rfl)))
      | (exact Or.inr (Or.inr (Or.inl (by rw [h]; rfl))))
      | (exact Or.inr (Or.inr (Or.inr (Or.inr h))))
      | (simp at h)
  · have h := mem_callsOf_ite h
    rw [callsOf_append, callsOf_print2Trace, callsOf_sphinxTrace_single] at h
    simp only [List.nil_append, List.mem_cons, List.mem_singleton] at h
    rcases h with h | h | h | h | h | h
    all_goals first
      | (exact Or.inr (Or.inl (by rw [h]; rfl)))
      | (exact Or.inr (Or.inr (Or.inl (by rw [h]; rfl))))
      | (exact Or.inr (Or.inr (Or.inr (Or.inl (Or.inr (Or.inr (Or.inr h)))))))
      | (simp at h)
  · have h := mem_callsOf_ite h
    rw [callsOf_append, callsOf_print2Trace, callsOf_unittestsTrace] at h
    simp only [List.nil_append, List.mem_singleton] at h
    exact Or.inl (by rw [h]; rfl)

theorem sphinxCall_empty (b : String) :
    sphinxCall b "" =
      [sphinxPath, "-b", b, "-d", "build/doctrees", "source", "build/" ++ b] := by
  simp [sphinxCall]

theorem paperArg_take2 (pv : String) :
    ("latex_paper_size=" ++ pv).data.take 2 = ['l', 'a'] := by
  rw [String.data_append]
  rfl

theorem paperArg_ne (pv s : String) (hs : s.data.take 2 ≠ ['l', 'a']) :
    "latex_paper_size=" ++ pv ≠ s := by
  intro he
  exact hs (by rw [← he]; exact paperArg_take2 pv)


/-! ### Claim C10: paper-size override only for the latex builder -/

/-- Claim C10: in any run, a `sphinx-build` invocation whose argument vector
carries the paper-size override (the `-D` flag or a `latex_paper_size=...`
argument) is necessarily the latex build: the changes, doctest, html and
linkcheck builders are always invoked without an override, whatever the
`--paper` value. -/
theorem C10_paper_only_latex (fs : Node) (o : Options) (args : List Path)
    (pp cwd : String) (a : List String) (pv : String)
    (ha : a ∈ callsOf (main fs o args pp (initState cwd)).trace)
    (hhead : a.head? = some sphinxPath)
    (hD : "-D" ∈ a ∨ ("latex_paper_size=" ++ pv) ∈ a) :
    a.take 3 = [sphinxPath, "-b", "latex"] := by
  rw [main_trace] at ha
  have ha' : a ∈ callsOf (mainTrace fs o args pp) := by
    simpa [initState] using ha
  rcases mem_callsOf_mainTrace ha' with h | h | h | h | h
  · rw [h] at hhead
    exact absurd (Option.some.inj hhead) (by decide)
  · rw [h] at hhead
    exact absurd (Option.some.inj hhead) (by decide)
  · rw [h] at hhead
    exact absurd (Option.some.inj hhead) (by decide)
  · rcases h with h | h | h | h <;> subst h <;> rcases hD with hD | hD
    · exact absurd hD (by decide)
    · rw [sphinxCall_empty] at hD
      simp only [List.mem_cons, List.not_mem_nil, or_false] at hD
      rcases hD with h | h | h | h | h | h | h <;>
        exact absurd h (paperArg_ne _ _ (by decide))
    · exact absurd hD (by decide)
    · rw [sphinxCall_empty] at hD
      simp only [List.mem_cons, List.not_mem_nil, or_false] at hD
      rcases hD with h | h | h | h | h | h | h <;>
        exact absurd h (paperArg_ne _ _ (by decide))
    · exact absurd hD (by decide)
    · rw [sphinxCall_empty] at hD
      simp only [List.mem_cons, List.not_mem_nil, or_false] at hD
      rcases hD with h | h | h | h | h | h | h <;>
        exact absurd h (paperArg_ne _ _ (by decide))
    · exact absurd hD (by decide)
    · rw [sphinxCall_empty] at hD
      simp only [List.mem_cons, List.not_mem_nil, or_false] at hD
      rcases hD with h | h | h | h | h | h | h <;>
        exact absurd h (paperArg_ne _ _ (by decide))
  · subst h
    rfl


/-- Claim C10, witness: in a plain `--latex` run, the spawned documentation
build carrying the `-D` override is indeed the latex one. -/
theorem C10_witness :
    (sphinxCall "latex" "letter").take 3 = [sphinxPath, "-b", "latex"] :=
  C10_paper_only_latex (Node.dir []) latexOnlyOptions [] "P" "W"
    (sphinxCall "latex" "letter") "letter" (by decide) (by decide)
    (Or.inl (by decide))

/-! ### Claim C8: the fixed dispatch order -/

theorem pairwise_le_of_const {k : Nat} :
    ∀ {l : List Nat}, (∀ x ∈ l, x = k) → l.Pairwise (· ≤ ·)
  | [], _ => List.Pairwise.nil
  | a :: l, h => by
      refine List.Pairwise.cons ?_ (pairwise_le_of_const fun x hx => h x (List.mem_cons_of_mem a hx))
      intro b hb
      rw [h a (List.mem_cons_self a l), h b (List.mem_cons_of_mem a hb)]

theorem sorted_append_of_const {k : Nat} {l rest : List Nat}
    (hl : ∀ x ∈ l, x = k) (hrest : rest.Pairwise (· ≤ ·))
    (hge : ∀ x ∈ rest, k ≤ x) :
    (l ++ rest).Pairwise (· ≤ ·) ∧ ∀ x ∈ l ++ rest, k ≤ x := by
  constructor
  · refine List.pairwise_append.mpr ⟨pairwise_le_of_const hl, hrest, ?_⟩
    intro a haa b hbb
    rw [hl a haa]
    exact hge b hbb
  · intro x hx
    rcases List.mem_append.mp hx with hx | hx
    · rw [hl x hx]
    · exact hge x hx

theorem callKind_pychek {OKd : Bool} {src : Path} :
    callKind (pychokCall OKd src) = some 0 := rfl

theorem callKind_mkdir (p : String) :
    callKind ["/bin/mkdir", "-p", p] = none := rfl

theorem callKind_rm (p : String) :
    callKind ["/bin/rm", "-rf", p] = none := rfl

theorem callKind_runtest {dirs : List Path} {v : PyVal} :
    callKind (runtestCall dirs v) = some 6 := rfl

theorem callKind_sphinx_changes (paper : String) :
    callKind (sphinxCall "changes" paper) = some 1 := rfl

theorem callKind_sphinx_doctest (paper : String) :
    callKind (sphinxCall "doctest" paper) = some 2 := rfl

theorem callKind_sphinx_html (paper : String) :
    callKind (sphinxCall "html" paper) = some 3 := rfl

theorem callKind_sphinx_latex (paper : String) :
    callKind (sphinxCall "latex" paper) = some 4 := rfl

theorem callKind_sphinx_linkcheck (paper : String) :
    callKind (sphinxCall "linkcheck" paper) = some 5 := rfl


theorem tags_pychek (fs : Node) (dirs : List Path) (OKd : Bool) (t : String)
    (v v' : PyVal) (x : Nat)
    (hx : x ∈ (callsOf (print2Trace t v ++ pychekTrace fs dirs OKd v')).filterMap callKind) :
    x = 0 := by
  rw [callsOf_append, callsOf_print2Trace, callsOf_pychekTrace] at hx
  simp only [List.nil_append] at hx
  rw [List.filterMap_map] at hx
  rcases List.mem_filterMap.mp hx with ⟨src, _, hk⟩
  have : callKind (pychokCall OKd src) = some 0 := callKind_pychek
  rw [Function.comp_apply, this] at hk
  exact (Option.some.inj hk).symm

theorem tags_sphinx (t : String) (v : PyVal) (b paper : String) (kb : Nat)
    (hb : callKind (sphinxCall b paper) = some kb) :
    (callsOf (print2Trace t v ++ sphinxTrace [b] paper)).filterMap callKind
      = [kb] := by
  rw [callsOf_append, callsOf_print2Trace, callsOf_sphinxTrace_single]
  simp [List.filterMap_cons, callKind_mkdir, callKind_rm, hb]

theorem tags_test (t : String) (v : PyVal) (pp : String) (dirs : List Path)
    (v' : PyVal) :
    (callsOf (print2Trace t v ++ unittestsTrace pp dirs v')).filterMap callKind
      = [6] := by
  rw [callsOf_append, callsOf_print2Trace, callsOf_unittestsTrace]
  simp [List.filterMap_cons, callKind_runtest]

theorem tags_ite_const {c : Prop} [Decidable c] {X : List Ev} {k : Nat}
    (hX : ∀ x ∈ (callsOf X).filterMap callKind, x = k) :
    ∀ x ∈ (callsOf (if c then X else [])).filterMap callKind, x = k := by
  intro x hx
  by_cases hc : c
  · rw [if_pos hc] at hx
    exact hX x hx
  · rw [if_neg hc] at hx
    simp [callsOf] at hx

theorem sorted_blocks7 {l0 l1 l2 l3 l4 l5 l6 : List Nat}
    (h0 : ∀ x ∈ l0, x = 0) (h1 : ∀ x ∈ l1, x = 1) (h2 : ∀ x ∈ l2, x = 2)
    (h3 : ∀ x ∈ l3, x = 3) (h4 : ∀ x ∈ l4, x = 4) (h5 : ∀ x ∈ l5, x = 5)
    (h6 : ∀ x ∈ l6, x = 6) :
    (l0 ++ (l1 ++ (l2 ++ (l3 ++ (l4 ++ (l5 ++ l6)))))).Pairwise (· ≤ ·) := by
  have P6 := pairwise_le_of_const h6
  have B6 : ∀ x ∈ l6, (6 : Nat) ≤ x := fun x hx => le_of_eq (h6 x hx).symm
  have S5 := sorted_append_of_const h5 P6
    (fun x hx => le_trans (by norm_num) (B6 x hx))
  have S4 := sorted_append_of_const h4 S5.1
    (fun x hx => le_trans (by norm_num) (S5.2 x hx))
  have S3 := sorted_append_of_const h3 S4.1
    (fun x hx => le_trans (by norm_num) (S4.2 x hx))
  have S2 := sorted_append_of_const h2 S3.1
    (fun x hx => le_trans (by norm_num) (S3.2 x hx))
  have S1 := sorted_append_of_const h1 S2.1
    (fun x hx => le_trans (by norm_num) (S2.2 x hx))
  have S0 := sorted_append_of_const h0 S1.1
    (fun x hx => le_trans (by norm_num) (S1.2 x hx))
  exact S0.1

/-! ### Claim C8: dispatch order of the runners -/

/-- Claim C8: for every flag combination, the task-runner invocations in the
trace of `main` occur in the fixed order pychecker, changes, doctest, html,
latex, linkcheck, test: the sequence of runner indices recognised by
`callKind` along the spawned subprocesses is monotonically non-decreasing. -/
theorem C8_fixed_order (fs : Node) (o : Options) (args : List Path)
    (pp cwd : String) :
    ((callsOf (main fs o args pp (initState cwd)).trace).filterMap
      callKind).Pairwise (· ≤ ·) := by
  rw [main_trace]
  have htr : callsOf ((initState cwd).trace ++ mainTrace fs o args pp)
      = callsOf (mainTrace fs o args pp) := by
    simp [initState]
  rw [htr]
  unfold mainTrace
  rw [callsOf_append, callsOf_append, callsOf_append, callsOf_append,
    callsOf_append, callsOf_append, List.filterMap_append,
    List.filterMap_append, List.filterMap_append, List.filterMap_append,
    List.filterMap_append, List.filterMap_append]
  simp only [List.append_assoc]
  refine sorted_blocks7 (tags_ite_const ?_) (tags_ite_const ?_)
    (tags_ite_const ?_) (tags_ite_const ?_) (tags_ite_const ?_)
    (tags_ite_const ?_) (tags_ite_const ?_)
  · exact fun x hx => tags_pychek fs (orDefault args [["pympler"]])
      (applyAll o).OKd "Running pychecker" (applyAll o).V (applyAll o).V x hx
  · intro x hx
    rw [tags_sphinx "Creating documentation changes" (applyAll o).V "changes" ""
      1 (callKind_sphinx_changes "")] at hx
    simpa using hx
  · intro x hx
    rw [tags_sphinx "Running doctest" (applyAll o).V "doctest" ""
      2 (callKind_sphinx_doctest "")] at hx
    simpa using hx
  · intro x hx
    rw [tags_sphinx "Creating HTML documention" (applyAll o).V "html" ""
      3 (callKind_sphinx_html "")] at hx
    simpa using hx
  · intro x hx
    rw [tags_sphinx "Creating LaTex (PDF) documention" (applyAll o).V "latex"
      (applyAll o).paper 4 (callKind_sphinx_latex (applyAll o).paper)] at hx
    simpa using hx
  · intro x hx
    rw [tags_sphinx "Checking documention links" (applyAll o).V "linkcheck" ""
      5 (callKind_sphinx_linkcheck "")] at hx
    simpa using hx
  · intro x hx
    rw [tags_test "Running unittests" (applyAll o).V pp
      (orDefault args [["test"]]) (applyAll o).V] at hx
    simpa using hx


/-! ### Lemmas about the pychecker pattern and the directory walk -/

theorem rmatches_star_nonNl : ∀ (t : List Char), '\n' ∉ t →
    RMatches (Regex.star Regex.nonNl) t
  | [], _ => RMatches.starNil
  | c :: t, h => by
      have hc : c ≠ '\n' := fun hc => h (hc ▸ List.mem_cons_self c t)
      have ht : '\n' ∉ t := fun ht => h (List.mem_cons_of_mem c ht)
      have h1 : RMatches Regex.nonNl [c] :=
        RMatches.pred (by simpa [bne_iff_ne] using hc)
      have h2 := rmatches_star_nonNl t ht
      exact (List.singleton_append ▸
        RMatches.starCons h1 h2 : RMatches (Regex.star Regex.nonNl) (c :: t))

theorem rmatches_py_tail :
    RMatches (Regex.cat Regex.dot (Regex.cat (Regex.chr 'p') (Regex.chr 'y')))
      ['.', 'p', 'y'] := by
  have h1 : RMatches Regex.dot ['.'] := RMatches.pred (by decide)
  have h2 : RMatches (Regex.chr 'p') ['p'] := RMatches.pred (by decide)
  have h3 : RMatches (Regex.chr 'y') ['y'] := RMatches.pred (by decide)
  exact RMatches.catm h1 (RMatches.catm h2 h3)

/-- Any base name that ends in `.py` and contains no newline matches the
pattern `'[^\n]*.py$'` of `run_pychecker`. -/
theorem pychok_pattern_matches (t : List Char) (h : '\n' ∉ t) :
    Regex.rmatch pychok_pattern.re (t ++ ['.', 'p', 'y']) = true :=
  RMatches.rmatch_eq_true
    (RMatches.catm (rmatches_star_nonNl t h) rmatches_py_tail)

theorem basename_append_last : ∀ (l : List String) (x : String),
    basename (l ++ [x]) = x
  | [], _ => rfl
  | [_], _ => rfl
  | _ :: b :: t, x => basename_append_last (b :: t) x

theorem lookup_cons_dir {c : String} {cs : Path} {es : List (String × Node)}
    {n' : Node} (h : lookup (c :: cs) (Node.dir es) = some n') :
    ∃ e, es.find? (fun e => e.1 = c) = some e ∧ lookup cs e.2 = some n' := by
  unfold lookup at h
  cases hf : es.find? (fun e => e.1 = c) with
  | none => rw [hf] at h; exact absurd h (by simp)
  | some e => rw [hf] at h; exact ⟨e, rfl, h⟩

theorem mem_walkSubs_of_mem_entry {pre x : Path} {name : String}
    {es' : List (String × Node)} :
    ∀ {es : List (String × Node)}, (name, Node.dir es') ∈ es →
      x ∈ walkNode (pre ++ [name]) (Node.dir es') → x ∈ walkSubs pre es
  | [], he, _ => by cases he
  | (n2, Node.file) :: rest, he, hx => by
      rcases List.mem_cons.mp he with he | he
      · exact absurd he (by simp)
      · show x ∈ walkSubs pre rest
        exact mem_walkSubs_of_mem_entry he hx
  | (n2, Node.dir es2) :: rest, he, hx => by
      rcases List.mem_cons.mp he with he | he
      · have h1 : name = n2 := congrArg Prod.fst he
        have h2 : Node.dir es' = Node.dir es2 := congrArg Prod.snd he
        have h3 : es' = es2 := by injection h2
        subst h1
        subst h3
        exact List.mem_append_left _ hx
      · exact List.mem_append_right _ (mem_walkSubs_of_mem_entry he hx)

/-- Completeness of the walk: every file reachable below a node is reported
by `os.walk`. -/
theorem mem_walkNode_of_lookup : ∀ (rel : Path) (n : Node) (pre : Path),
    lookup rel n = some Node.file → rel ≠ [] → (pre ++ rel) ∈ walkNode pre n := by
  intro rel
  induction rel with
  | nil => intro n pre _ hne; exact absurd rfl hne
  | cons c cs ih =>
      intro n pre hlk _
      cases n with
      | file => exact absurd hlk (by simp [lookup])
      | dir es =>
          rcases lookup_cons_dir hlk with ⟨e, hf, hrest⟩
          have he_mem : e ∈ es := List.mem_of_find?_eq_some hf
          have he_name : e.1 = c := by
            have h := List.find?_some hf
            simpa using h
          cases cs with
          | nil =>
              have he_file : e.2 = Node.file := Option.some.inj hrest
              have : pre ++ [c] ∈ filesOf pre es := by
                refine List.mem_filterMap.mpr ⟨e, he_mem, ?_⟩
                rw [he_file, he_name]
              exact List.mem_append_left _ this
          | cons c2 cs2 =>
              have he_dir : ∃ es2, e.2 = Node.dir es2 := by
                cases hd : e.2 with
                | file => rw [hd] at hrest; exact absurd hrest (by simp [lookup])
                | dir es2 => exact ⟨es2, rfl⟩
              rcases he_dir with ⟨es2, hd⟩
              have hmem : (pre ++ [c]) ++ (c2 :: cs2)
                  ∈ walkNode (pre ++ [c]) e.2 := by
                refine ih e.2 (pre ++ [c]) hrest (by simp)
              have he_mem' : (c, Node.dir es2) ∈ es := by
                have : (e.1, e.2) = (c, Node.dir es2) := by rw [he_name, hd]
                simpa [← this] using he_mem
              have hsubs : (pre ++ [c]) ++ (c2 :: cs2) ∈ walkSubs pre es :=
                mem_walkSubs_of_mem_entry he_mem' (by rwa [hd] at hmem)
              have heq : pre ++ (c :: c2 :: cs2) = (pre ++ [c]) ++ (c2 :: cs2) := by
                simp
              rw [heq]
              exact List.mem_append_right _ hsubs


theorem lookup_file_eq_nil {cs : Path} {n' : Node}
    (h : lookup cs Node.file = some n') : cs = [] := by
  cases cs with
  | nil => rfl
  | cons a b => exact absurd h (by simp [lookup])

theorem lookup_cons_inv {c : String} {cs : Path} {n n' : Node}
    (h : lookup (c :: cs) n = some n') :
    ∃ es e, n = Node.dir es ∧ es.find? (fun e => e.1 = c) = some e ∧
      lookup cs e.2 = some n' := by
  cases n with
  | file => exact absurd h (by simp [lookup])
  | dir es =>
      rcases lookup_cons_dir h with ⟨e, hf, hr⟩
      exact ⟨es, e, rfl, hf, hr⟩

theorem mem_filesOf {pre x : Path} {es : List (String × Node)} :
    x ∈ filesOf pre es ↔ ∃ name, (name, Node.file) ∈ es ∧ x = pre ++ [name] := by
  constructor
  · intro hx
    rcases List.mem_filterMap.mp hx with ⟨e, he, heq⟩
    cases hd : e.2 with
    | file =>
        rw [hd] at heq
        refine ⟨e.1, ?_, (Option.some.inj heq).symm⟩
        have : (e.1, Node.file) = e := by
          rcases e with ⟨n, s⟩
          simp at hd
          rw [hd]
        rwa [this]
    | dir es2 => rw [hd] at heq; exact absurd heq (by simp)
  · intro ⟨name, hmem, heq⟩
    refine List.mem_filterMap.mpr ⟨(name, Node.file), hmem, ?_⟩
    rw [heq]

mutual

theorem walkNode_shape : ∀ (n : Node) (pre x : Path), x ∈ walkNode pre n →
    ∃ c r, x = pre ++ c :: r
  | Node.file, pre, x, hx => by simp [walkNode] at hx
  | Node.dir es, pre, x, hx => by
      rcases List.mem_append.mp hx with hx | hx
      · rcases mem_filesOf.mp hx with ⟨name, _, heq⟩
        exact ⟨name, [], heq⟩
      · rcases walkSubs_shape es pre x hx with ⟨name, r, _, heq, _⟩
        exact ⟨name, r, heq⟩

theorem walkSubs_shape : ∀ (es : List (String × Node)) (pre x : Path),
    x ∈ walkSubs pre es →
    ∃ name r, (∃ sub, (name, sub) ∈ es) ∧ x = pre ++ name :: r ∧ r ≠ []
  | [], pre, x, hx => by simp [walkSubs] at hx
  | (n2, Node.file) :: rest, pre, x, hx => by
      rcases walkSubs_shape rest pre x hx with ⟨name, r, ⟨sub, hmem⟩, heq, hne⟩
      exact ⟨name, r, ⟨sub, List.mem_cons_of_mem _ hmem⟩, heq, hne⟩
  | (n2, Node.dir es2) :: rest, pre, x, hx => by
      rcases List.mem_append.mp hx with hx | hx
      · rcases walkNode_shape (Node.dir es2) (pre ++ [n2]) x hx with ⟨c, r, heq⟩
        refine ⟨n2, c :: r, ⟨Node.dir es2, List.mem_cons_self _ _⟩, ?_, by simp⟩
        rw [heq]
        simp
      · rcases walkSubs_shape rest pre x hx with ⟨name, r, ⟨sub, hmem⟩, heq, hne⟩
        exact ⟨name, r, ⟨sub, List.mem_cons_of_mem _ hmem⟩, heq, hne⟩

end

theorem filesOf_nodup {pre : Path} :
    ∀ {es : List (String × Node)}, (es.map Prod.fst).Nodup →
      (filesOf pre es).Nodup
  | [], _ => by simp [filesOf]
  | (n2, s2) :: rest, h => by
      have h'' : (n2 :: rest.map Prod.fst).Nodup := by
        simpa only [List.map_cons] using h
      have h' := List.nodup_cons.mp h''

      cases s2 with
      | file =>
          have : filesOf pre ((n2, Node.file) :: rest)
              = (pre ++ [n2]) :: filesOf pre rest := by
            simp [filesOf]
          rw [this]
          refine List.nodup_cons.mpr ⟨?_, filesOf_nodup h'.2⟩
          intro hmem
          rcases mem_filesOf.mp hmem with ⟨name, hmem', heq⟩
          have : n2 = name := by simpa using heq
          exact h'.1 (this ▸ (List.mem_map.mpr ⟨(name, Node.file), hmem', (this ▸ rfl)⟩))
      | dir es2 =>
          have : filesOf pre ((n2, Node.dir es2) :: rest) = filesOf pre rest := by
            simp [filesOf]
          rw [this]
          exact filesOf_nodup h'.2


mutual

theorem walkNode_nodup : ∀ (n : Node) (pre : Path), Node.wfb n = true →
    (walkNode pre n).Nodup
  | Node.file, pre, _ => by simp [walkNode]
  | Node.dir es, pre, h => by
      have h' : (decide ((es.map Prod.fst).Nodup) && Node.wfbList es) = true := h
      rw [Bool.and_eq_true] at h'
      rcases h' with ⟨h1, h2⟩
      have hnames : (es.map Prod.fst).Nodup := of_decide_eq_true h1
      show (filesOf pre es ++ walkSubs pre es).Nodup
      refine List.Nodup.append (filesOf_nodup hnames)
        (walkSubs_nodup es pre hnames h2) ?_
      intro x hx1 hx2
      rcases mem_filesOf.mp hx1 with ⟨name, _, heq1⟩
      rcases walkSubs_shape es pre x hx2 with ⟨name2, r, _, heq2, hne⟩
      rw [heq1] at heq2
      have hcan : [name] = name2 :: r := List.append_cancel_left heq2
      have : r = [] := by
        have := congrArg List.tail hcan
        simpa using this.symm
      exact hne this

theorem walkSubs_nodup : ∀ (es : List (String × Node)) (pre : Path),
    (es.map Prod.fst).Nodup → Node.wfbList es = true → (walkSubs pre es).Nodup
  | [], pre, _, _ => by simp [walkSubs]
  | (n2, s2) :: rest, pre, hnames, hlist => by
      have h'' : (n2 :: rest.map Prod.fst).Nodup := by
        simpa only [List.map_cons] using hnames
      have h' := List.nodup_cons.mp h''
      have hl' : (Node.wfb s2 && Node.wfbList rest) = true := hlist
      rw [Bool.and_eq_true] at hl'
      rcases hl' with ⟨hw, hrest⟩
      cases s2 with
      | file =>
          show (walkSubs pre rest).Nodup
          exact walkSubs_nodup rest pre h'.2 hrest
      | dir es2 =>
          show (walkNode (pre ++ [n2]) (Node.dir es2) ++ walkSubs pre rest).Nodup
          refine List.Nodup.append
            (walkNode_nodup (Node.dir es2) (pre ++ [n2]) hw)
            (walkSubs_nodup rest pre h'.2 hrest) ?_
          intro x hx1 hx2
          rcases walkNode_shape (Node.dir es2) (pre ++ [n2]) x hx1 with ⟨c, r, heq1⟩
          rcases walkSubs_shape rest pre x hx2 with
            ⟨name2, r2, ⟨sub2, hmem2⟩, heq2, _⟩
          have heq1' : x = pre ++ n2 :: (c :: r) := by rw [heq1]; simp
          rw [heq1'] at heq2
          have hcan : n2 :: (c :: r) = name2 :: r2 :=
            List.append_cancel_left heq2
          have hn : n2 = name2 := by
            have := congrArg List.head? hcan
            simpa using this
          refine h'.1 ?_
          rw [hn]
          exact List.mem_map.mpr ⟨(name2, sub2), hmem2, rfl⟩

end

theorem wfbList_mem : ∀ {es : List (String × Node)}, Node.wfbList es = true →
    ∀ {e : String × Node}, e ∈ es → Node.wfb e.2 = true
  | [], _, _, he => absurd he (by simp)
  | e2 :: rest, h, e, he => by
      have h' : (Node.wfb e2.2 && Node.wfbList rest) = true := h
      rw [Bool.and_eq_true] at h'
      rcases h' with ⟨hw, hrest⟩
      rcases List.mem_cons.mp he with he | he
      · rw [he]; exact hw
      · exact wfbList_mem hrest he

theorem wfb_lookup : ∀ (p : Path) (n n' : Node), Node.wfb n = true →
    lookup p n = some n' → Node.wfb n' = true
  | [], n, n', h, hl => by
      have : n = n' := Option.some.inj hl
      rw [← this]; exact h
  | c :: cs, Node.file, n', _, hl => absurd hl (by simp [lookup])
  | c :: cs, Node.dir es, n', h, hl => by
      rcases lookup_cons_dir hl with ⟨e, hf, hrest⟩
      have hmem := List.mem_of_find?_eq_some hf
      have h' : (decide ((es.map Prod.fst).Nodup) && Node.wfbList es) = true := h
      rw [Bool.and_eq_true] at h'
      rcases h' with ⟨_, h2⟩
      exact wfb_lookup cs e.2 n' (wfbList_mem h2 hmem) hrest

theorem get_files_single_nodup (fs : Node) (p : PyPattern) (loc : Path)
    (hwf : Node.wfb fs = true) : (get_files fs [loc] p).Nodup := by
  have h0 : get_files fs [loc] p = processLoc fs p loc := by
    simp [get_files]
  rw [h0]
  unfold processLoc
  cases hlk : lookup loc fs with
  | none => simp
  | some n =>
      cases n with
      | file =>
          by_cases hm : pyMatch p (basename loc) = true <;> simp [hm]
      | dir es =>
          have hw := wfb_lookup loc fs (Node.dir es) hwf hlk
          exact List.Nodup.filter _ (walkNode_nodup (Node.dir es) loc hw)


/-! ### Claim C6: `--pychecker --OKd` with args `["pkg"]` -/

/-- Claim C6, counterexample: the file `pkg/a\nb.py` ends in `.py`, yet a
`--pychecker --OKd` run over `pkg` spawns no subprocess at all for it: the
pattern `'[^\n]*.py$'` cannot match a base name containing a newline, so
the claim "once per `.py` file found under pkg" fails on such a name. -/
theorem C6_counterexample :
    ("a\nb.py").data = ['a', '\n', 'b'] ++ ['.', 'p', 'y']
    ∧ lookup ["pkg", "a\nb.py"] fsC6 = some Node.file
    ∧ callsOf (main fsC6 pycheckerOKdOptions [["pkg"]] "P" (initState "W")).trace
        = [] :=
  ⟨rfl, rfl, by rw [main_trace]; rfl⟩

/-- Claim C6 (amended): invoked as `--pychecker --OKd` with positional args
`["pkg"]`, the run spawns exactly one independent postprocessor subprocess
per discovered source file, in discovery order, each with arguments
`-- --stdlib --quiet <file>` (the acknowledged-warnings flag `--` instead of
`-no-OKd`), continuing through the full list; every file under `pkg` whose
base name ends in `.py` and contains no newline character is discovered, and
on a well-formed directory tree the discovered list has no duplicates, so
each such file is checked exactly once. -/
theorem C6_pychecker_OKd_run (fs : Node) (pp cwd : String) (rel : Path)
    (name : String) (t : List Char) :
    callsOf (main fs pycheckerOKdOptions [["pkg"]] pp (initState cwd)).trace
      = (get_files fs [["pkg"]] pychok_pattern).map (pychokCall true)
    ∧ (lookup ("pkg" :: rel ++ [name]) fs = some Node.file →
        name.data = t ++ ['.', 'p', 'y'] → '\n' ∉ t →
        ("pkg" :: rel ++ [name]) ∈ get_files fs [["pkg"]] pychok_pattern)
    ∧ (Node.wfb fs = true → (get_files fs [["pkg"]] pychok_pattern).Nodup) := by
  refine ⟨?_, ?_, ?_⟩
  · rw [main_trace]
    simp [initState, mainTrace, applyAll, pycheckerOKdOptions, defaultOptions,
      orDefault, callsOf_append, callsOf_print2Trace, callsOf_pychekTrace,
      callsOf_nil]
  · intro hlk hname hnl
    rcases lookup_cons_inv hlk with ⟨es0, e, hfs, hf, hrest⟩
    have hne : rel ++ [name] ≠ [] := by simp
    have hdir : ∃ es1, e.2 = Node.dir es1 := by
      cases hd : e.2 with
      | file =>
          rw [hd] at hrest
          exact absurd (lookup_file_eq_nil hrest) hne
      | dir es1 => exact ⟨es1, rfl⟩
    rcases hdir with ⟨es1, hd⟩
    have hlk2 : lookup ["pkg"] fs = some (Node.dir es1) := by
      rw [hfs]
      simp [lookup, hf, hd]
    have hsrc : get_files fs [["pkg"]] pychok_pattern
        = (walkNode ["pkg"] (Node.dir es1)).filter
            (fun p => pyMatch pychok_pattern (basename p)) := by
      simp [get_files, processLoc, hlk2]
    rw [hsrc]
    refine List.mem_filter.mpr ⟨?_, ?_⟩
    · have := mem_walkNode_of_lookup (rel ++ [name]) (Node.dir es1) ["pkg"]
        (by rw [← hd]; exact hrest) hne
      simpa using this
    · have hb : basename ("pkg" :: rel ++ [name]) = name :=
        basename_append_last ("pkg" :: rel) name
      rw [hb]
      have : Regex.rmatch pychok_pattern.re name.data = true := by
        rw [hname]
        exact pychok_pattern_matches t hnl
      simp [pyMatch, show pychok_pattern.anchorEnd = true from rfl, this]
  · intro hwf
    exact get_files_single_nodup fs pychok_pattern ["pkg"] hwf

/-- Claim C6, witness: the amended statement at the concrete package
directory containing exactly `pkg/a.py`. -/
theorem C6_witness :
    callsOf (main fsPkg pycheckerOKdOptions [["pkg"]] "P" (initState "W")).trace
      = (get_files fsPkg [["pkg"]] pychok_pattern).map (pychokCall true)
    ∧ ["pkg", "a.py"] ∈ get_files fsPkg [["pkg"]] pychok_pattern
    ∧ (get_files fsPkg [["pkg"]] pychok_pattern).Nodup := by
  have h := C6_pychecker_OKd_run fsPkg "P" "W" [] "a.py" ['a']
  exact ⟨h.1, h.2.1 rfl rfl (by decide), h.2.2 rfl⟩

end Run
